import Mathlib

/-!
Shallow embedding of the `Voting` Solidity contract (src/unnamed/part_000)
and proofs of the specification's claims about it.

Identities (`address`) are modelled as natural numbers with decidable
equality, Solidity `uint` values as `Nat` (vote counts and indices only
grow, so 2^256 overflow is unreachable in any realistic trace and the
contract performs no subtraction), the `mapping(address => bool) hasVoted`
as the list of addresses that have been set to `true` (the contract only
ever writes `true`; the public getter returns `false` for unseen keys),
and a reverting `require` as an `Except` error.  Each public function is
translated in the source's order of checks and writes; a transaction that
reverts leaves the caller with the pre-call state (`step` below).
-/

namespace Voting

/-- Identities: opaque comparable tokens (`address` in the source). -/
abbrev Address := Nat

/-- Mirrors `struct Proposal { string name; uint voteCount; }`. -/
structure Proposal where
  name : String
  voteCount : Nat
deriving Repr, DecidableEq

/-- Error kinds of the four `require` failures (§7 of the spec).
The two name-length `require`s of `_addProposalInternal` both surface as
`InvalidProposal`. -/
inductive VmError where
  | Unauthorized
  | InvalidProposal
  | InvalidIndex
  | AlreadyVoted
deriving Repr, DecidableEq

/-- Mirrors `event Voted(address voter, uint proposalIndex)` and
`event ProposalAdded(uint proposalIndex, string name)`. -/
inductive Event where
  | Voted (voter : Address) (proposalIndex : Nat)
  | ProposalAdded (proposalIndex : Nat) (name : String)
deriving Repr, DecidableEq

/-- The contract's storage: `owner`, the `proposals` array, the
`hasVoted` mapping (as the list of addresses stored `true`), plus the
emitted event log. -/
structure State where
  owner : Address
  proposals : List Proposal
  voted : List Address
  events : List Event
deriving Repr, DecidableEq

/-- The public getter `hasVoted(address)`: `true` iff the address was
ever written `true` in the mapping; `false` for unseen keys. -/
def hasVoted (s : State) (a : Address) : Bool :=
  s.voted.contains a

/-- Mirrors `function _addProposalInternal(string memory _name) internal`:
`require(bytes(_name).length > 0)`, `require(bytes(_name).length < 100)`,
then push `Proposal({name: _name, voteCount: 0})` at index
`proposals.length` and emit `ProposalAdded`. -/
def _addProposalInternal (s : State) (name : String) : Except VmError State :=
  if ¬ 0 < name.utf8ByteSize then
    .error .InvalidProposal
  else if ¬ name.utf8ByteSize < 100 then
    .error .InvalidProposal
  else
    let newProposalIndex := s.proposals.length
    .ok { s with
          proposals := s.proposals ++ [{ name := name, voteCount := 0 }],
          events := s.events ++ [.ProposalAdded newProposalIndex name] }

/-- Mirrors `function addProposal(string memory _name) public onlyOwner`:
the `onlyOwner` modifier is `require(msg.sender == owner)` run before
the body, which just calls `_addProposalInternal`.  The source declares
no `returns` clause, so an accepted call hands the caller no value, only
the post-state. -/
def addProposal (s : State) (sender : Address) (name : String) : Except VmError State :=
  if ¬ sender = s.owner then
    .error .Unauthorized
  else
    _addProposalInternal s name

/-- The ABI-level return data of `addProposal`: the source signature
`function addProposal(string memory _name) public onlyOwner` declares no
return values, so a successful call returns the empty tuple. -/
def addProposalRetData (s : State) (sender : Address) (name : String) : Except VmError Unit :=
  (addProposal s sender name).map (fun _ => ())

/-- Mirrors `proposals[_proposalIndex].voteCount++`: increment the
`voteCount` of the element at the given index, leaving everything else
unchanged. -/
def incVoteAt : List Proposal → Nat → List Proposal
  | [], _ => []
  | p :: ps, 0 => { p with voteCount := p.voteCount + 1 } :: ps
  | p :: ps, n + 1 => p :: incVoteAt ps n

/-- Mirrors `function vote(uint _proposalIndex) public`:
`require(_proposalIndex < proposals.length)`,
`require(!hasVoted[msg.sender])`, then `hasVoted[msg.sender] = true`,
`proposals[_proposalIndex].voteCount++`, and emit `Voted`. -/
def vote (s : State) (sender : Address) (proposalIndex : Nat) : Except VmError State :=
  if ¬ proposalIndex < s.proposals.length then
    .error .InvalidIndex
  else if hasVoted s sender then
    .error .AlreadyVoted
  else
    .ok { s with
          voted := sender :: s.voted,
          proposals := incVoteAt s.proposals proposalIndex,
          events := s.events ++ [.Voted sender proposalIndex] }

/-- Mirrors `function getProposalsCount() public view returns (uint)`. -/
def getProposalsCount (s : State) : Nat :=
  s.proposals.length

/-- Mirrors `function getProposal(uint _index) public view returns (string, uint)`:
`require(_index < proposals.length)`, then return the stored name and
vote count. -/
def getProposal (s : State) (i : Nat) : Except VmError (String × Nat) :=
  if h : i < s.proposals.length then
    let proposal := s.proposals[i]
    .ok (proposal.name, proposal.voteCount)
  else
    .error .InvalidIndex

/-- The scan loop of `getWinner`: walk the proposals carrying the running
index `i`, `winningVoteCount` and `winningProposalIndex`, updating both
exactly when the current proposal's `voteCount` is strictly greater than
`winningVoteCount`; return the final `winningProposalIndex`. -/
def winnerScan : List Proposal → Nat → Nat → Nat → Nat
  | [], _, _, winningProposalIndex => winningProposalIndex
  | p :: ps, i, winningVoteCount, winningProposalIndex =>
    if p.voteCount > winningVoteCount then
      winnerScan ps (i + 1) p.voteCount i
    else
      winnerScan ps (i + 1) winningVoteCount winningProposalIndex

/-- Mirrors `function getWinner() public view returns (string memory)`:
return the sentinel when `proposals.length == 0`, otherwise scan with
`winningVoteCount = 0`, `winningProposalIndex = 0` and return the name at
the resulting index (always in bounds, see `winnerScan_spec`; the `""`
default is unreachable). -/
def getWinner (s : State) : String :=
  if s.proposals.length = 0 then
    "No proposals available"
  else
    match s.proposals[winnerScan s.proposals 0 0 0]? with
    | some p => p.name
    | none => ""

/-- Mirrors the `constructor()`: set `owner := msg.sender`, then seed the
three demonstration proposals through `_addProposalInternal`. -/
def deploy (deployer : Address) : Except VmError State := do
  let s : State := { owner := deployer, proposals := [], voted := [], events := [] }
  let s ← _addProposalInternal s "Proposal A: Fund Project Alpha"
  let s ← _addProposalInternal s "Proposal B: Support Initiative Beta"
  let s ← _addProposalInternal s "Proposal C: Allocate Resources Gamma"
  pure s

/-- An external call to one of the two mutating entry points, tagged with
its `msg.sender`. -/
inductive Call where
  | addProposal (sender : Address) (name : String)
  | vote (sender : Address) (proposalIndex : Nat)
deriving Repr, DecidableEq

/-- Whether the call's transaction succeeds from state `s` (no `require`
reverts). -/
def accepted (s : State) (c : Call) : Bool :=
  match c with
  | .addProposal sender name =>
    match addProposal s sender name with
    | .ok _ => true
    | .error _ => false
  | .vote sender i =>
    match vote s sender i with
    | .ok _ => true
    | .error _ => false

/-- The transaction semantics of one external call: an accepted call
moves to the post-state, a reverted call leaves the state as it was. -/
def step (s : State) (c : Call) : State :=
  match c with
  | .addProposal sender name =>
    match addProposal s sender name with
    | .ok s' => s'
    | .error _ => s
  | .vote sender i =>
    match vote s sender i with
    | .ok s' => s'
    | .error _ => s

/-- Run a sequence of external calls. -/
def run (s : State) (cs : List Call) : State :=
  match cs with
  | [] => s
  | c :: cs => run (step s c) cs

/-- Number of accepted `vote` calls sent by address `a` along the trace. -/
def acceptedVotesBy (s : State) (cs : List Call) (a : Address) : Nat :=
  match cs with
  | [] => 0
  | c :: cs =>
    (match c with
     | .vote sender _ => if sender = a ∧ accepted s c = true then 1 else 0
     | .addProposal _ _ => 0) + acceptedVotesBy (step s c) cs a

/-- Number of accepted `vote` calls for proposal index `i` along the trace. -/
def acceptedVotesFor (s : State) (cs : List Call) (i : Nat) : Nat :=
  match cs with
  | [] => 0
  | c :: cs =>
    (match c with
     | .vote _ j => if j = i ∧ accepted s c = true then 1 else 0
     | .addProposal _ _ => 0) + acceptedVotesFor (step s c) cs i

/-- Number of accepted `addProposal` calls along the trace. -/
def acceptedAdds (s : State) (cs : List Call) : Nat :=
  match cs with
  | [] => 0
  | c :: cs =>
    (match c with
     | .addProposal _ _ => if accepted s c = true then 1 else 0
     | .vote _ _ => 0) + acceptedAdds (step s c) cs

/-- The storage produced by `constructor()` when deployed by `d`: the
deployer as `owner`, the three seed proposals with `voteCount = 0`, an
empty `hasVoted` mapping, and the three `ProposalAdded` events. -/
def deployedState (d : Address) : State :=
  { owner := d,
    proposals := [{ name := "Proposal A: Fund Project Alpha", voteCount := 0 },
                  { name := "Proposal B: Support Initiative Beta", voteCount := 0 },
                  { name := "Proposal C: Allocate Resources Gamma", voteCount := 0 }],
    voted := [],
    events := [.ProposalAdded 0 "Proposal A: Fund Project Alpha",
               .ProposalAdded 1 "Proposal B: Support Initiative Beta",
               .ProposalAdded 2 "Proposal C: Allocate Resources Gamma"] }

/-- The deployed ledger of identity `d` after the owner appends one more
proposal named `nm`; a concrete example state used below. -/
def exampleAfterAdd (d : Address) (nm : String) : State :=
  { owner := d,
    proposals := [{ name := "Proposal A: Fund Project Alpha", voteCount := 0 },
                  { name := "Proposal B: Support Initiative Beta", voteCount := 0 },
                  { name := "Proposal C: Allocate Resources Gamma", voteCount := 0 },
                  { name := nm, voteCount := 0 }],
    voted := [],
    events := [.ProposalAdded 0 "Proposal A: Fund Project Alpha",
               .ProposalAdded 1 "Proposal B: Support Initiative Beta",
               .ProposalAdded 2 "Proposal C: Allocate Resources Gamma",
               .ProposalAdded 3 nm] }

/-- The `voteCount` stored at index `i` (0 when out of bounds). -/
def voteCountAt (s : State) (i : Nat) : Nat :=
  match s.proposals[i]? with
  | some p => p.voteCount
  | none => 0

/-- The `name` stored at index `i` (`""` when out of bounds). -/
def nameAt (s : State) (i : Nat) : String :=
  match s.proposals[i]? with
  | some p => p.name
  | none => ""

-- Basic characterizations of the operations.

theorem _addProposalInternal_ok_iff (s s' : State) (name : String) :
    _addProposalInternal s name = .ok s' ↔
      0 < name.utf8ByteSize ∧ name.utf8ByteSize < 100 ∧
      s' = { s with proposals := s.proposals ++ [{ name := name, voteCount := 0 }],
                    events := s.events ++ [.ProposalAdded s.proposals.length name] } := by
  simp only [_addProposalInternal]
  split_ifs with h1 h2
  · simp only [Except.ok.injEq]
    constructor
    · intro h
      exact ⟨h1, h2, h.symm⟩
    · rintro ⟨-, -, rfl⟩
      rfl
  · simp [h2]
  · simp [h1]

theorem addProposal_ok_iff (s s' : State) (sender : Address) (name : String) :
    addProposal s sender name = .ok s' ↔
      sender = s.owner ∧ 0 < name.utf8ByteSize ∧ name.utf8ByteSize < 100 ∧
      s' = { s with proposals := s.proposals ++ [{ name := name, voteCount := 0 }],
                    events := s.events ++ [.ProposalAdded s.proposals.length name] } := by
  simp only [addProposal, _addProposalInternal]
  split_ifs with h1 h2 h3
  · simp only [Except.ok.injEq]
    constructor
    · intro h
      exact ⟨h1, h2, h3, h.symm⟩
    · rintro ⟨-, -, -, rfl⟩
      rfl
  · simp [h3]
  · simp [h2]
  · simp [h1]

theorem vote_ok_iff (s s' : State) (sender : Address) (i : Nat) :
    vote s sender i = .ok s' ↔
      i < s.proposals.length ∧ hasVoted s sender = false ∧
      s' = { s with voted := sender :: s.voted,
                    proposals := incVoteAt s.proposals i,
                    events := s.events ++ [.Voted sender i] } := by
  simp only [vote]
  split_ifs with h1 h2
  · simp [h2]
  · simp only [Except.ok.injEq]
    constructor
    · intro h
      exact ⟨h1, by simpa using h2, h.symm⟩
    · rintro ⟨-, -, rfl⟩
      rfl
  · simp [h1]

theorem vote_oob (s : State) (sender : Address) (i : Nat)
    (h : ¬ i < s.proposals.length) :
    vote s sender i = .error .InvalidIndex := by
  simp [vote, h]

theorem getProposal_oob (s : State) (i : Nat)
    (h : ¬ i < s.proposals.length) :
    getProposal s i = .error .InvalidIndex := by
  simp [getProposal, h]

theorem getProposal_inb (s : State) (i : Nat)
    (h : i < s.proposals.length) :
    getProposal s i = .ok (nameAt s i, voteCountAt s i) := by
  simp only [getProposal, nameAt, voteCountAt, dif_pos h, List.getElem?_eq_getElem h]

theorem addProposal_not_owner (s : State) (sender : Address) (name : String)
    (h : ¬ sender = s.owner) :
    addProposal s sender name = .error .Unauthorized := by
  simp [addProposal, h]

-- `accepted` and `step`.

theorem accepted_addProposal_iff (s : State) (sender : Address) (name : String) :
    accepted s (.addProposal sender name) = true ↔
      sender = s.owner ∧ 0 < name.utf8ByteSize ∧ name.utf8ByteSize < 100 := by
  simp only [accepted]
  constructor
  · intro h
    split at h
    · rename_i s' hs'
      have := (addProposal_ok_iff s s' sender name).1 hs'
      exact ⟨this.1, this.2.1, this.2.2.1⟩
    · exact absurd h (by simp)
  · rintro ⟨h1, h2, h3⟩
    have : addProposal s sender name = .ok
        { s with proposals := s.proposals ++ [{ name := name, voteCount := 0 }],
                 events := s.events ++ [.ProposalAdded s.proposals.length name] } :=
      (addProposal_ok_iff s _ sender name).2 ⟨h1, h2, h3, rfl⟩
    rw [this]

theorem accepted_vote_iff (s : State) (sender : Address) (i : Nat) :
    accepted s (.vote sender i) = true ↔
      i < s.proposals.length ∧ hasVoted s sender = false := by
  simp only [accepted]
  constructor
  · intro h
    split at h
    · rename_i s' hs'
      have := (vote_ok_iff s s' sender i).1 hs'
      exact ⟨this.1, this.2.1⟩
    · exact absurd h (by simp)
  · rintro ⟨h1, h2⟩
    have : vote s sender i = .ok
        { s with voted := sender :: s.voted,
                 proposals := incVoteAt s.proposals i,
                 events := s.events ++ [.Voted sender i] } :=
      (vote_ok_iff s _ sender i).2 ⟨h1, h2, rfl⟩
    rw [this]

theorem step_not_accepted (s : State) (c : Call)
    (h : accepted s c = false) : step s c = s := by
  cases c with
  | addProposal sender name =>
    simp only [step]
    split
    · rename_i s' hs'
      simp [accepted, hs'] at h
    · rfl
  | vote sender i =>
    simp only [step]
    split
    · rename_i s' hs'
      simp [accepted, hs'] at h
    · rfl

theorem step_addProposal_accepted (s : State) (sender : Address) (name : String)
    (h : accepted s (.addProposal sender name) = true) :
    step s (.addProposal sender name) =
      { s with proposals := s.proposals ++ [{ name := name, voteCount := 0 }],
               events := s.events ++ [.ProposalAdded s.proposals.length name] } := by
  rcases (accepted_addProposal_iff s sender name).1 h with ⟨h1, h2, h3⟩
  have hok : addProposal s sender name = .ok
      { s with proposals := s.proposals ++ [{ name := name, voteCount := 0 }],
               events := s.events ++ [.ProposalAdded s.proposals.length name] } :=
    (addProposal_ok_iff s _ sender name).2 ⟨h1, h2, h3, rfl⟩
  simp only [step, hok]

theorem step_vote_accepted (s : State) (sender : Address) (i : Nat)
    (h : accepted s (.vote sender i) = true) :
    step s (.vote sender i) =
      { s with voted := sender :: s.voted,
               proposals := incVoteAt s.proposals i,
               events := s.events ++ [.Voted sender i] } := by
  rcases (accepted_vote_iff s sender i).1 h with ⟨h1, h2⟩
  have hok : vote s sender i = .ok
      { s with voted := sender :: s.voted,
               proposals := incVoteAt s.proposals i,
               events := s.events ++ [.Voted sender i] } :=
    (vote_ok_iff s _ sender i).2 ⟨h1, h2, rfl⟩
  simp only [step, hok]

-- `incVoteAt` facts.

theorem incVoteAt_length (ps : List Proposal) (j : Nat) :
    (incVoteAt ps j).length = ps.length := by
  induction ps generalizing j with
  | nil => rfl
  | cons p ps ih =>
    cases j with
    | zero => simp [incVoteAt]
    | succ n => simp [incVoteAt, ih]

theorem incVoteAt_getElem? (ps : List Proposal) (j i : Nat) :
    (incVoteAt ps j)[i]? =
      if i = j then ps[i]?.map (fun p => { p with voteCount := p.voteCount + 1 })
      else ps[i]? := by
  induction ps generalizing j i with
  | nil => simp [incVoteAt]
  | cons p ps ih =>
    cases j with
    | zero =>
      cases i with
      | zero => simp [incVoteAt]
      | succ k => simp [incVoteAt]
    | succ m =>
      cases i with
      | zero => simp [incVoteAt]
      | succ k =>
        simpa [incVoteAt] using ih m k

theorem deploy_eq (d : Address) : deploy d = .ok (deployedState d) := rfl

-- How `hasVoted` evolves under `step`.

theorem hasVoted_step_mono (s : State) (c : Call) (a : Address)
    (h : hasVoted s a = true) : hasVoted (step s c) a = true := by
  by_cases hacc : accepted s c = true
  · cases c with
    | addProposal sender name =>
      rw [step_addProposal_accepted s sender name hacc]
      exact h
    | vote sender i =>
      rw [step_vote_accepted s sender i hacc]
      simp only [hasVoted] at h ⊢
      simp only [List.contains_cons, h, Bool.or_true]
  · rw [step_not_accepted s c (by simpa using hacc)]
    exact h

theorem hasVoted_step_of_not_self_vote (s : State) (c : Call) (a : Address)
    (h : ¬ ∃ i, c = .vote a i ∧ accepted s c = true) :
    hasVoted (step s c) a = hasVoted s a := by
  by_cases hacc : accepted s c = true
  · cases c with
    | addProposal sender name =>
      rw [step_addProposal_accepted s sender name hacc]
      rfl
    | vote sender i =>
      have hsa : ¬ sender = a := by
        intro he
        exact h ⟨i, by rw [he], hacc⟩
      rw [step_vote_accepted s sender i hacc]
      simp only [hasVoted, List.contains_cons]
      have : (a == sender) = false := by
        simp only [beq_eq_false_iff_ne, ne_eq]
        intro he
        exact hsa he.symm
      simp [this]
  · rw [step_not_accepted s c (by simpa using hacc)]

theorem accepted_self_vote_hasVoted (s : State) (a : Address) (i : Nat)
    (h : accepted s (.vote a i) = true) :
    hasVoted s a = false ∧ hasVoted (step s (.vote a i)) a = true := by
  refine ⟨((accepted_vote_iff s a i).1 h).2, ?_⟩
  rw [step_vote_accepted s a i h]
  simp [hasVoted]

-- Once an address has voted, no later `vote` by it is ever accepted.

theorem votes_after_voted (cs : List Call) : ∀ (s : State) (a : Address),
    hasVoted s a = true →
    acceptedVotesBy s cs a = 0 ∧ hasVoted (run s cs) a = true := by
  induction cs with
  | nil =>
    intro s a h
    exact ⟨rfl, h⟩
  | cons c cs ih =>
    intro s a h
    obtain ⟨h0, h1⟩ := ih (step s c) a (hasVoted_step_mono s c a h)
    refine ⟨?_, h1⟩
    simp only [acceptedVotesBy, h0, Nat.add_zero]
    cases c with
    | addProposal sender name => rfl
    | vote sender i =>
      by_cases hsa : sender = a
      · subst hsa
        have hnacc : ¬ accepted s (.vote sender i) = true := by
          intro hacc
          have hfv := ((accepted_vote_iff s sender i).1 hacc).2
          rw [h] at hfv
          exact absurd hfv (by simp)
        simp [hnacc]
      · simp [hsa]

-- Before an address has voted, at most one of its `vote` calls succeeds.

theorem votes_before_voted (cs : List Call) : ∀ (s : State) (a : Address),
    hasVoted s a = false →
    acceptedVotesBy s cs a ≤ 1 ∧
    (hasVoted (run s cs) a = true ↔ acceptedVotesBy s cs a = 1) := by
  induction cs with
  | nil =>
    intro s a h
    simp [acceptedVotesBy, run, h]
  | cons c cs ih =>
    intro s a h
    by_cases hva : ∃ i, c = .vote a i ∧ accepted s c = true
    · obtain ⟨i, rfl, hacc⟩ := hva
      obtain ⟨hf, ht⟩ := accepted_self_vote_hasVoted s a i hacc
      obtain ⟨h0, h1⟩ := votes_after_voted cs (step s (.vote a i)) a ht
      constructor
      · simp [acceptedVotesBy, hacc, h0]
      · simp only [run, acceptedVotesBy, hacc, h0, h1]
        simp
    · have hstep : hasVoted (step s c) a = false := by
        rw [hasVoted_step_of_not_self_vote s c a hva]
        exact h
      obtain ⟨h0, h1⟩ := ih (step s c) a hstep
      have hcontrib :
          (match c with
           | .vote sender _ => if sender = a ∧ accepted s c = true then 1 else 0
           | .addProposal _ _ => 0) = 0 := by
        cases c with
        | addProposal sender name => rfl
        | vote sender i =>
          by_cases hsa : sender = a
          · subst hsa
            have : ¬ accepted s (.vote sender i) = true := by
              intro hacc
              exact hva ⟨i, rfl, hacc⟩
            simp [this]
          · simp [hsa]
      constructor
      · simpa [acceptedVotesBy, hcontrib] using h0
      · simpa [run, acceptedVotesBy, hcontrib] using h1

-- How a stored proposal's name and vote count evolve under `step`.

theorem step_proposal_tracking (s : State) (c : Call) (i : Nat)
    (h : i < s.proposals.length) :
    i < (step s c).proposals.length ∧
    nameAt (step s c) i = nameAt s i ∧
    voteCountAt (step s c) i =
      voteCountAt s i +
        (match c with
         | .vote _ j => if j = i ∧ accepted s c = true then 1 else 0
         | .addProposal _ _ => 0) := by
  by_cases hacc : accepted s c = true
  · cases c with
    | addProposal sender name =>
      rw [step_addProposal_accepted s sender name hacc]
      refine ⟨by simp; omega, ?_, ?_⟩
      · simp only [nameAt]
        rw [List.getElem?_append_left h]
      · simp only [voteCountAt]
        rw [List.getElem?_append_left h]
        rfl
    | vote sender j =>
      rw [step_vote_accepted s sender j hacc]
      have hq : s.proposals[i]? = some s.proposals[i] := List.getElem?_eq_getElem h
      refine ⟨by simpa [incVoteAt_length] using h, ?_, ?_⟩
      · simp only [nameAt, incVoteAt_getElem?]
        by_cases hj : i = j
        · subst hj
          simp [hq]
        · simp [hj]
      · simp only [voteCountAt, incVoteAt_getElem?]
        by_cases hj : i = j
        · subst hj
          simp [hq, hacc]
        · have hj' : ¬ j = i := fun he => hj he.symm
          simp [hj, hj']
  · rw [step_not_accepted s c (by simpa using hacc)]
    refine ⟨h, rfl, ?_⟩
    cases c with
    | addProposal sender name => rfl
    | vote sender j => simp [hacc]

theorem run_proposal_tracking (cs : List Call) : ∀ (s : State) (i : Nat),
    i < s.proposals.length →
    i < (run s cs).proposals.length ∧
    nameAt (run s cs) i = nameAt s i ∧
    voteCountAt (run s cs) i = voteCountAt s i + acceptedVotesFor s cs i := by
  induction cs with
  | nil =>
    intro s i h
    exact ⟨h, rfl, by simp [acceptedVotesFor, run]⟩
  | cons c cs ih =>
    intro s i h
    obtain ⟨p1, p2, p3⟩ := step_proposal_tracking s c i h
    obtain ⟨q1, q2, q3⟩ := ih (step s c) i p1
    refine ⟨q1, ?_, ?_⟩
    · rw [show run s (c :: cs) = run (step s c) cs from rfl, q2, p2]
    · rw [show run s (c :: cs) = run (step s c) cs from rfl, q3, p3]
      simp only [acceptedVotesFor]
      omega

-- How the number of proposals evolves.

theorem step_length (s : State) (c : Call) :
    (step s c).proposals.length =
      s.proposals.length +
        (match c with
         | .addProposal _ _ => if accepted s c = true then 1 else 0
         | .vote _ _ => 0) := by
  by_cases hacc : accepted s c = true
  · cases c with
    | addProposal sender name =>
      rw [step_addProposal_accepted s sender name hacc]
      simp [hacc]
    | vote sender j =>
      rw [step_vote_accepted s sender j hacc]
      simp [incVoteAt_length]
  · rw [step_not_accepted s c (by simpa using hacc)]
    cases c with
    | addProposal sender name => simp [hacc]
    | vote sender j => rfl

theorem run_length (cs : List Call) : ∀ s : State,
    (run s cs).proposals.length = s.proposals.length + acceptedAdds s cs := by
  induction cs with
  | nil =>
    intro s
    simp [run, acceptedAdds]
  | cons c cs ih =>
    intro s
    rw [show run s (c :: cs) = run (step s c) cs from rfl, ih (step s c), step_length]
    simp only [acceptedAdds]
    cases c with
    | addProposal sender name => omega
    | vote sender j => omega

-- The scan loop of `getWinner`: either no proposal beats the seed
-- `winningVoteCount` and the seed index is returned, or the returned
-- index is the first one attaining the maximum vote count.

theorem winnerScan_spec (ps : List Proposal) : ∀ (i wc wi : Nat),
    (winnerScan ps i wc wi = wi ∧ ∀ p ∈ ps, p.voteCount ≤ wc) ∨
    (∃ k, ∃ hk : k < ps.length,
      winnerScan ps i wc wi = i + k ∧
      wc < (ps.get ⟨k, hk⟩).voteCount ∧
      (∀ m (hm : m < ps.length),
        (ps.get ⟨m, hm⟩).voteCount ≤ (ps.get ⟨k, hk⟩).voteCount) ∧
      (∀ m (hm : m < k),
        (ps.get ⟨m, Nat.lt_trans hm hk⟩).voteCount < (ps.get ⟨k, hk⟩).voteCount)) := by
  induction ps with
  | nil =>
    intro i wc wi
    exact Or.inl ⟨rfl, by simp⟩
  | cons p ps ih =>
    intro i wc wi
    by_cases hcmp : p.voteCount > wc
    · rw [show winnerScan (p :: ps) i wc wi = winnerScan ps (i + 1) p.voteCount i from by
        simp [winnerScan, hcmp]]
      rcases ih (i + 1) p.voteCount i with ⟨he, hall⟩ | ⟨k, hk, he, hgt, hmax, hstrict⟩
      · refine Or.inr ⟨0, by simp, by simpa using he, by simpa using hcmp, ?_, ?_⟩
        · intro m hm
          cases m with
          | zero => simp
          | succ n =>
            simp only [List.get_eq_getElem, List.getElem_cons_succ, List.getElem_cons_zero]
            exact hall _ (List.getElem_mem _)
        · intro m hm
          exact absurd hm (Nat.not_lt_zero m)
      · refine Or.inr ⟨k + 1, by simpa using hk, by rw [he]; omega, ?_, ?_, ?_⟩
        · simpa using Nat.lt_trans hcmp hgt
        · intro m hm
          cases m with
          | zero => simpa using Nat.le_of_lt hgt
          | succ n =>
            simpa using hmax n (by simpa using hm)
        · intro m hm
          cases m with
          | zero => simpa using hgt
          | succ n =>
            simpa using hstrict n (by omega)
    · rw [show winnerScan (p :: ps) i wc wi = winnerScan ps (i + 1) wc wi from by
        simp [winnerScan, hcmp]]
      rcases ih (i + 1) wc wi with ⟨he, hall⟩ | ⟨k, hk, he, hgt, hmax, hstrict⟩
      · refine Or.inl ⟨he, ?_⟩
        intro q hq
        rcases List.mem_cons.1 hq with rfl | hq
        · exact Nat.le_of_not_lt hcmp
        · exact hall q hq
      · refine Or.inr ⟨k + 1, by simpa using hk, by rw [he]; omega, hgt, ?_, ?_⟩
        · intro m hm
          cases m with
          | zero =>
            simpa using Nat.le_of_lt (Nat.lt_of_le_of_lt (Nat.le_of_not_lt hcmp) hgt)
          | succ n =>
            simpa using hmax n (by simpa using hm)
        · intro m hm
          cases m with
          | zero =>
            simpa using Nat.lt_of_le_of_lt (Nat.le_of_not_lt hcmp) hgt
          | succ n =>
            simpa using hstrict n (by omega)

theorem voteCountAt_eq (s : State) (j : Nat) (h : j < s.proposals.length) :
    voteCountAt s j = (s.proposals.get ⟨j, h⟩).voteCount := by
  simp [voteCountAt, List.getElem?_eq_getElem h]

theorem nameAt_eq (s : State) (j : Nat) (h : j < s.proposals.length) :
    nameAt s j = (s.proposals.get ⟨j, h⟩).name := by
  simp [nameAt, List.getElem?_eq_getElem h]

-- Every element of `incVoteAt ps j` carries the name of an element of `ps`.

theorem incVoteAt_names (ps : List Proposal) : ∀ (j : Nat) (p : Proposal),
    p ∈ incVoteAt ps j → ∃ q ∈ ps, q.name = p.name := by
  induction ps with
  | nil =>
    intro j p hp
    simp [incVoteAt] at hp
  | cons q ps ih =>
    intro j p hp
    cases j with
    | zero =>
      rcases List.mem_cons.1 hp with rfl | hp
      · exact ⟨q, List.mem_cons_self q ps, rfl⟩
      · exact ⟨p, List.mem_cons_of_mem q hp, rfl⟩
    | succ n =>
      rcases List.mem_cons.1 hp with rfl | hp
      · exact ⟨p, List.mem_cons_self p ps, rfl⟩
      · obtain ⟨r, hr, hname⟩ := ih n p hp
        exact ⟨r, List.mem_cons_of_mem q hr, hname⟩

-- All stored names keep byte length in [1, 99] along any trace.

theorem run_names_valid (cs : List Call) : ∀ s : State,
    (∀ p ∈ s.proposals, 1 ≤ p.name.utf8ByteSize ∧ p.name.utf8ByteSize ≤ 99) →
    ∀ p ∈ (run s cs).proposals,
      1 ≤ p.name.utf8ByteSize ∧ p.name.utf8ByteSize ≤ 99 := by
  induction cs with
  | nil =>
    intro s h
    simpa [run] using h
  | cons c cs ih =>
    intro s h
    apply ih
    by_cases hacc : accepted s c = true
    · cases c with
      | addProposal sender nm =>
        rw [step_addProposal_accepted _ _ _ hacc]
        intro p hp
        rcases List.mem_append.1 hp with hp | hp
        · exact h p hp
        · have hval := (accepted_addProposal_iff s sender nm).1 hacc
          rcases List.mem_singleton.1 hp with rfl
          refine ⟨hval.2.1, ?_⟩
          show nm.utf8ByteSize ≤ 99
          omega
      | vote sender j =>
        rw [step_vote_accepted _ _ _ hacc]
        intro p hp
        obtain ⟨q, hq, hname⟩ := incVoteAt_names s.proposals j p hp
        rw [← hname]
        exact h q hq
    · rw [step_not_accepted s c (by simpa using hacc)]
      exact h

end Voting

open Voting

/-- C1: starting from a freshly deployed ledger, for every identity `a` and
every sequence of calls, at most one `vote` call by `a` is accepted,
`hasVoted a` is true iff exactly one `vote` call by `a` was accepted, and
`hasVoted a` is false when no `vote` call by `a` was accepted. -/
theorem claim_C1_one_vote_per_identity (d : Address) (s0 : State)
    (cs : List Call) (a : Address) (h0 : deploy d = .ok s0) :
    acceptedVotesBy s0 cs a ≤ 1 ∧
    (hasVoted (run s0 cs) a = true ↔ acceptedVotesBy s0 cs a = 1) ∧
    (acceptedVotesBy s0 cs a = 0 → hasVoted (run s0 cs) a = false) := by
  have hv : hasVoted s0 a = false := by
    rw [deploy_eq d] at h0
    injection h0 with h
    subst h
    rfl
  obtain ⟨h1, h2⟩ := votes_before_voted cs s0 a hv
  refine ⟨h1, h2, ?_⟩
  intro hz
  cases hvt : hasVoted (run s0 cs) a
  · rfl
  · have := h2.1 hvt
    omega

/-- Witness for C1: identity 9 sends two `vote` calls to the ledger
deployed by identity 5. -/
theorem claim_C1_witness :
    acceptedVotesBy (deployedState 5) [.vote 9 0, .vote 9 1] 9 ≤ 1 ∧
    (hasVoted (run (deployedState 5) [.vote 9 0, .vote 9 1]) 9 = true ↔
      acceptedVotesBy (deployedState 5) [.vote 9 0, .vote 9 1] 9 = 1) ∧
    (acceptedVotesBy (deployedState 5) [.vote 9 0, .vote 9 1] 9 = 0 →
      hasVoted (run (deployedState 5) [.vote 9 0, .vote 9 1]) 9 = false) :=
  claim_C1_one_vote_per_identity 5 (deployedState 5) [.vote 9 0, .vote 9 1] 9
    (deploy_eq 5)

/-- C2: on any ledger state with at least one proposal, `getWinner` returns
the name of the proposal at the lowest index among those sharing the
maximum vote count (every index has a vote count at most the winner's, and
every strictly lower index has a strictly smaller one); in particular when
all vote counts are 0 it returns the name at index 0. -/
theorem claim_C2_winner_first_max (s : State) (h : 0 < getProposalsCount s) :
    (∃ j < getProposalsCount s,
      getWinner s = nameAt s j ∧
      (∀ m < getProposalsCount s, voteCountAt s m ≤ voteCountAt s j) ∧
      (∀ m < j, voteCountAt s m < voteCountAt s j)) ∧
    ((∀ m < getProposalsCount s, voteCountAt s m = 0) →
      getWinner s = nameAt s 0) := by
  have hne : ¬ s.proposals.length = 0 := by
    simp only [getProposalsCount] at h
    omega
  have hmain : ∃ j < getProposalsCount s,
      getWinner s = nameAt s j ∧
      (∀ m < getProposalsCount s, voteCountAt s m ≤ voteCountAt s j) ∧
      (∀ m < j, voteCountAt s m < voteCountAt s j) := by
    rcases winnerScan_spec s.proposals 0 0 0 with ⟨he, hall⟩ |
      ⟨k, hk, he, hgt, hmax, hstrict⟩
    · refine ⟨0, h, ?_, ?_, ?_⟩
      · simp only [getWinner, if_neg hne, he, nameAt]
      · intro m hm
        have hm' : m < s.proposals.length := hm
        have : (s.proposals.get ⟨m, hm'⟩).voteCount ≤ 0 :=
          hall _ (List.get_mem _ _ _)
        rw [voteCountAt_eq s m hm']
        omega
      · intro m hm
        exact absurd hm (Nat.not_lt_zero m)
    · refine ⟨k, hk, ?_, ?_, ?_⟩
      · simp only [getWinner, if_neg hne, he, Nat.zero_add, nameAt]
      · intro m hm
        have hm' : m < s.proposals.length := hm
        rw [voteCountAt_eq s m hm', voteCountAt_eq s k hk]
        exact hmax m hm'
      · intro m hm
        have hm' : m < s.proposals.length := Nat.lt_trans hm hk
        rw [voteCountAt_eq s m hm', voteCountAt_eq s k hk]
        exact hstrict m hm
  refine ⟨hmain, ?_⟩
  intro hz
  obtain ⟨j, hj, hname, hmax, hstrict⟩ := hmain
  have hj0 : j = 0 := by
    by_contra hne0
    have h0j : 0 < j := Nat.pos_of_ne_zero hne0
    have hlt := hstrict 0 h0j
    have e1 : voteCountAt s 0 = 0 := hz 0 h
    have e2 : voteCountAt s j = 0 := hz j hj
    omega
  subst hj0
  exact hname

/-- Witness for C2 on the freshly deployed ledger of identity 4. -/
theorem claim_C2_witness :
    (∃ j < getProposalsCount (deployedState 4),
      getWinner (deployedState 4) = nameAt (deployedState 4) j ∧
      (∀ m < getProposalsCount (deployedState 4),
        voteCountAt (deployedState 4) m ≤ voteCountAt (deployedState 4) j) ∧
      (∀ m < j, voteCountAt (deployedState 4) m < voteCountAt (deployedState 4) j)) ∧
    ((∀ m < getProposalsCount (deployedState 4), voteCountAt (deployedState 4) m = 0) →
      getWinner (deployedState 4) = nameAt (deployedState 4) 0) :=
  claim_C2_winner_first_max (deployedState 4) (by decide)

/-- C3: a proposal is created (by the constructor or by `addProposal`,
both through `_addProposalInternal`) with `voteCount = 0` at index equal
to the pre-append count; after any subsequent sequence of calls,
`getProposal` at that index returns the proposal's name together with
exactly the number of accepted `vote` calls for that index since the
creation. -/
theorem claim_C3_vote_count_accuracy (s s' : State) (name : String)
    (cs : List Call) (h : Voting._addProposalInternal s name = .ok s') :
    getProposal (run s' cs) (getProposalsCount s) =
      .ok (name, acceptedVotesFor s' cs (getProposalsCount s)) := by
  obtain ⟨-, -, hs'⟩ := (Voting._addProposalInternal_ok_iff s s' name).1 h
  have hlen : getProposalsCount s < s'.proposals.length := by
    rw [hs']
    simp [getProposalsCount]
  obtain ⟨p1, p2, p3⟩ := run_proposal_tracking cs s' (getProposalsCount s) hlen
  rw [getProposal_inb _ _ p1, p2, p3]
  have hn : nameAt s' (getProposalsCount s) = name := by
    rw [hs']
    simp [nameAt, getProposalsCount, List.getElem?_concat_length]
  have hv : voteCountAt s' (getProposalsCount s) = 0 := by
    rw [hs']
    simp [voteCountAt, getProposalsCount, List.getElem?_concat_length]
  rw [hn, hv, Nat.zero_add]

/-- Witness for C3: the proposal "Delta" is added to the deployed ledger
of identity 0 and then receives one accepted vote. -/
theorem claim_C3_witness :
    getProposal (run (exampleAfterAdd 0 "Delta") [.vote 7 3])
      (getProposalsCount (deployedState 0)) =
      .ok ("Delta", acceptedVotesFor (exampleAfterAdd 0 "Delta") [.vote 7 3]
        (getProposalsCount (deployedState 0))) :=
  claim_C3_vote_count_accuracy (deployedState 0) (exampleAfterAdd 0 "Delta")
    "Delta" [.vote 7 3] rfl

/-- C4: on a ledger with zero proposals, `getWinner` returns the defined
sentinel string "No proposals available" as an ordinary value. -/
theorem claim_C4_empty_sentinel (s : State) (h : getProposalsCount s = 0) :
    getWinner s = "No proposals available" := by
  have hz : s.proposals.length = 0 := h
  simp [getWinner, hz]

/-- Witness for C4 on a ledger whose proposal list is empty. -/
theorem claim_C4_witness :
    getWinner { owner := 0, proposals := [], voted := [], events := [] } =
      "No proposals available" :=
  claim_C4_empty_sentinel { owner := 0, proposals := [], voted := [], events := [] } rfl

/-- C5: after an accepted `addProposal` at the end of any trace from a
deployed ledger, the count equals the total number of accepted
`addProposal` calls including the three constructor seeds, the proposal at
index `count - 1` is the just-added name with `voteCount = 0`, and the new
proposal sits at index equal to the pre-append count. -/
theorem claim_C5_append (d : Address) (s0 : State) (cs : List Call)
    (sender : Address) (name : String) (s' : State)
    (h0 : deploy d = .ok s0)
    (h : addProposal (run s0 cs) sender name = .ok s') :
    getProposalsCount s' = (3 + acceptedAdds s0 cs) + 1 ∧
    getProposal s' (getProposalsCount s' - 1) = .ok (name, 0) ∧
    s'.proposals[getProposalsCount (run s0 cs)]? =
      some { name := name, voteCount := 0 } := by
  obtain ⟨-, -, -, hs'⟩ := (addProposal_ok_iff _ s' sender name).1 h
  have hlen0 : s0.proposals.length = 3 := by
    rw [deploy_eq d] at h0
    injection h0 with h0
    subst h0
    rfl
  have hrun := run_length cs s0
  have hcount : getProposalsCount s' = (run s0 cs).proposals.length + 1 := by
    rw [hs']
    simp [getProposalsCount]
  refine ⟨?_, ?_, ?_⟩
  · rw [hcount]
    omega
  · have hidx : getProposalsCount s' - 1 = (run s0 cs).proposals.length := by
      omega
    rw [hidx]
    have hlt : (run s0 cs).proposals.length < s'.proposals.length := by
      rw [hs']
      simp [getProposalsCount]
    rw [getProposal_inb _ _ hlt]
    have hn : nameAt s' (run s0 cs).proposals.length = name := by
      rw [hs']
      simp [nameAt, List.getElem?_concat_length]
    have hv : voteCountAt s' (run s0 cs).proposals.length = 0 := by
      rw [hs']
      simp [voteCountAt, List.getElem?_concat_length]
    rw [hn, hv]
  · rw [hs']
    simp [getProposalsCount, List.getElem?_concat_length]

/-- Witness for C5: the owner adds "Proposal D" right after deployment by
identity 1. -/
theorem claim_C5_witness :
    getProposalsCount (exampleAfterAdd 1 "Proposal D") =
      (3 + acceptedAdds (deployedState 1) []) + 1 ∧
    getProposal (exampleAfterAdd 1 "Proposal D")
      (getProposalsCount (exampleAfterAdd 1 "Proposal D") - 1) =
      .ok ("Proposal D", 0) ∧
    (exampleAfterAdd 1 "Proposal D").proposals[getProposalsCount (run (deployedState 1) [])]? =
      some { name := "Proposal D", voteCount := 0 } :=
  claim_C5_append 1 (deployedState 1) [] 1 "Proposal D"
    (exampleAfterAdd 1 "Proposal D") (deploy_eq 1) rfl

/-- C6: with the owner as caller, `addProposal` accepts a name iff its
UTF-8 byte length is between 1 and 99 inclusive; an empty name and a name
of 100 or more bytes both fail with `InvalidProposal`; and every proposal
stored in any state reached from a deployed ledger has name byte length in
`[1, 99]`. -/
theorem claim_C6_name_validation (s : State) (name : String)
    (d : Address) (s0 : State) (cs : List Call) (h0 : deploy d = .ok s0) :
    ((∃ s', addProposal s s.owner name = .ok s') ↔
      1 ≤ name.utf8ByteSize ∧ name.utf8ByteSize ≤ 99) ∧
    (name.utf8ByteSize = 0 → addProposal s s.owner name = .error .InvalidProposal) ∧
    (100 ≤ name.utf8ByteSize → addProposal s s.owner name = .error .InvalidProposal) ∧
    (∀ p ∈ (run s0 cs).proposals,
      1 ≤ p.name.utf8ByteSize ∧ p.name.utf8ByteSize ≤ 99) := by
  refine ⟨?_, ?_, ?_, ?_⟩
  · constructor
    · rintro ⟨s', hs'⟩
      obtain ⟨-, h1, h2, -⟩ := (addProposal_ok_iff s s' s.owner name).1 hs'
      omega
    · rintro ⟨h1, h2⟩
      exact ⟨_, (addProposal_ok_iff s _ s.owner name).2 ⟨rfl, by omega, by omega, rfl⟩⟩
  · intro hz
    have h1 : ¬ 0 < name.utf8ByteSize := by omega
    simp [addProposal, Voting._addProposalInternal, h1]
  · intro hz
    have h1 : ¬ name.utf8ByteSize < 100 := by omega
    have h2 : 0 < name.utf8ByteSize := by omega
    simp [addProposal, Voting._addProposalInternal, h1, h2]
  · apply run_names_valid
    rw [deploy_eq d] at h0
    injection h0 with h0
    subst h0
    intro p hp
    fin_cases hp <;> refine ⟨by decide, by decide⟩

/-- Witness for C6 with the two-byte name "Hi" on the ledger deployed by
identity 2, with an empty trailing trace. -/
theorem claim_C6_witness :
    ((∃ s', addProposal (deployedState 2) (deployedState 2).owner "Hi" = .ok s') ↔
      1 ≤ "Hi".utf8ByteSize ∧ "Hi".utf8ByteSize ≤ 99) ∧
    ("Hi".utf8ByteSize = 0 →
      addProposal (deployedState 2) (deployedState 2).owner "Hi" =
        .error .InvalidProposal) ∧
    (100 ≤ "Hi".utf8ByteSize →
      addProposal (deployedState 2) (deployedState 2).owner "Hi" =
        .error .InvalidProposal) ∧
    (∀ p ∈ (run (deployedState 2) []).proposals,
      1 ≤ p.name.utf8ByteSize ∧ p.name.utf8ByteSize ≤ 99) :=
  claim_C6_name_validation (deployedState 2) "Hi" 2 (deployedState 2) []
    (deploy_eq 2)

/-- C7: `addProposal` called by any identity other than the owner fails
with `Unauthorized`, and every rejected call leaves the entire ledger
state (owner, proposals, `hasVoted` mapping and event log alike)
unchanged. -/
theorem claim_C7_unauthorized_atomicity (s : State) (sender : Address)
    (name : String) (c : Call) (h : ¬ sender = s.owner) :
    addProposal s sender name = .error .Unauthorized ∧
    (accepted s c = false → step s c = s) :=
  ⟨addProposal_not_owner s sender name h, step_not_accepted s c⟩

/-- Witness for C7: identity 3 is not the owner of the ledger deployed by
identity 0, and a rejected out-of-range vote leaves the state unchanged. -/
theorem claim_C7_witness :
    addProposal (deployedState 0) 3 "Proposal D" = .error .Unauthorized ∧
    (accepted (deployedState 0) (.vote 3 99) = false →
      step (deployedState 0) (.vote 3 99) = deployedState 0) :=
  claim_C7_unauthorized_atomicity (deployedState 0) 3 "Proposal D"
    (.vote 3 99) (by decide)

/-- C8: for every index not below the proposal count — in particular the
count itself — `vote` and `getProposal` both fail with `InvalidIndex`,
for any caller and any state. -/
theorem claim_C8_bounds (s : State) (sender : Address) (i : Nat)
    (h : ¬ i < getProposalsCount s) :
    vote s sender i = .error .InvalidIndex ∧
    getProposal s i = .error .InvalidIndex :=
  ⟨vote_oob s sender i h, getProposal_oob s i h⟩

/-- Witness for C8 at index 3 = count of the freshly deployed ledger. -/
theorem claim_C8_witness :
    vote (deployedState 0) 4 3 = .error .InvalidIndex ∧
    getProposal (deployedState 0) 3 = .error .InvalidIndex :=
  claim_C8_bounds (deployedState 0) 4 3 (by decide)

/-- C9, counterexample: the source signature
`function addProposal(string memory _name) public onlyOwner` declares no
`returns` clause, so the data an accepted call returns to the caller is
empty.  Two accepted calls whose newly assigned indices differ (pre-append
counts 3 and 4) return identical (empty) data, so the returned value
cannot be the newly assigned index. -/
theorem claim_C9_counterexample :
    addProposalRetData (deployedState 0) 0 "Proposal D" =
      addProposalRetData (exampleAfterAdd 0 "Proposal D") 0 "Proposal E" ∧
    accepted (deployedState 0) (.addProposal 0 "Proposal D") = true ∧
    accepted (exampleAfterAdd 0 "Proposal D") (.addProposal 0 "Proposal E") = true ∧
    getProposalsCount (deployedState 0) ≠
      getProposalsCount (exampleAfterAdd 0 "Proposal D") :=
  ⟨rfl, rfl, rfl, by decide⟩

/-- C9, amended: an accepted `addProposal` call returns no data to the
caller; the newly assigned index — the pre-append count — is surfaced
through the emitted `ProposalAdded` event, and the new proposal is stored
at that index with `voteCount = 0`. -/
theorem claim_C9_amended_return (s s' : State) (sender : Address)
    (name : String) (h : addProposal s sender name = .ok s') :
    addProposalRetData s sender name = .ok () ∧
    s'.events = s.events ++ [.ProposalAdded (getProposalsCount s) name] ∧
    getProposal s' (getProposalsCount s) = .ok (name, 0) := by
  obtain ⟨-, -, -, hs'⟩ := (addProposal_ok_iff s s' sender name).1 h
  refine ⟨?_, ?_, ?_⟩
  · simp [addProposalRetData, h, Except.map]
  · rw [hs']
    rfl
  · have hlt : getProposalsCount s < s'.proposals.length := by
      rw [hs']
      simp [getProposalsCount]
    rw [getProposal_inb _ _ hlt]
    have hn : nameAt s' (getProposalsCount s) = name := by
      rw [hs']
      simp [nameAt, getProposalsCount, List.getElem?_concat_length]
    have hv : voteCountAt s' (getProposalsCount s) = 0 := by
      rw [hs']
      simp [voteCountAt, getProposalsCount, List.getElem?_concat_length]
    rw [hn, hv]

/-- Witness for the amended C9: the owner of the deployed ledger of
identity 0 adds "Proposal D". -/
theorem claim_C9_amended_witness :
    addProposalRetData (deployedState 0) 0 "Proposal D" = .ok () ∧
    (exampleAfterAdd 0 "Proposal D").events =
      (deployedState 0).events ++
        [.ProposalAdded (getProposalsCount (deployedState 0)) "Proposal D"] ∧
    getProposal (exampleAfterAdd 0 "Proposal D")
      (getProposalsCount (deployedState 0)) = .ok ("Proposal D", 0) :=
  claim_C9_amended_return (deployedState 0) (exampleAfterAdd 0 "Proposal D")
    0 "Proposal D" rfl

/-- C10: deployment by any identity `d` sets `owner = d` and seeds exactly
the three fixed proposals, in order, each with `voteCount = 0`, so the
count is 3; `deploy` takes no argument besides the deployer, so no other
seed list is possible. -/
theorem claim_C10_constructor (d : Address) :
    deploy d = .ok (deployedState d) ∧
    (deployedState d).owner = d ∧
    (deployedState d).proposals =
      [{ name := "Proposal A: Fund Project Alpha", voteCount := 0 },
       { name := "Proposal B: Support Initiative Beta", voteCount := 0 },
       { name := "Proposal C: Allocate Resources Gamma", voteCount := 0 }] ∧
    getProposalsCount (deployedState d) = 3 :=
  ⟨deploy_eq d, rfl, rfl, rfl⟩
